import Mathlib

/-!
# HamLearn — verification of the core logic of `src/ham-learn/src/App.jsx`

A shallow embedding of the pure logic of the HamLearn study application:
the semicolon-delimited question-bank parser (`parseCSVSemicolon`), the
Fisher–Yates `shuffle`, the flashcard review ordering (`Flashcards.ordered`),
flashcard grading (`Flashcards.mark`), quiz sampling and submission
(`Quiz.pick`, `Quiz.submit`), the daily-progress/streak update
(`bumpProgress`), and the displayed percentages (`ResultsSummary`,
`ProgressDashboard`).

Modelling conventions:
* JavaScript strings are modelled as `List Char` (`Str`); `String.prototype.trim`
  is modelled at the ASCII whitespace level.
* The JavaScript objects used as string-keyed maps (`srs`, `progress`,
  `answers`) are modelled as association lists with first-match lookup and
  in-place update (`lookupA` / `setA`).
* Calendar dates ("YYYY-MM-DD" keys) are modelled as integers, one per day;
  moving to the previous day is subtraction by one.
* Timestamps (ISO strings converted with `new Date(_).getTime()`) are
  modelled as natural numbers of milliseconds.
* `Math.random()` is modelled by an arbitrary oracle `rand : Nat → Nat`;
  `Math.floor(Math.random() * (i + 1))` becomes `rand i % (i + 1)`, which
  ranges over exactly the same set of indices `0 … i`.
* The unbounded `while (true)` streak loop of `bumpProgress` is modelled with
  explicit fuel `cur.length + 1`; the fuel is proved sufficient
  (`streakLoop_le_length`), so the fuelled function computes exactly the
  value the terminating loop computes.
-/

/-- JavaScript strings, modelled as lists of characters. -/
abbrev Str := List Char

/-- ASCII whitespace, the fragment of JavaScript's `trim` character class that
occurs in the question-bank data. -/
def isWsChar (c : Char) : Bool :=
  c == ' ' || c == '\t' || c == '\r' || c == '\n'

/-- `s.trim()`: remove leading and trailing whitespace. -/
def trimStr (s : Str) : Str :=
  ((s.dropWhile isWsChar).reverse.dropWhile isWsChar).reverse

/-- `text.split(/\r?\n/)`: split on `"\r\n"` or `"\n"`; a lone `'\r'` is not a
separator. `"".split` gives `[""]`, and a trailing separator yields a final
empty piece, exactly as in JavaScript. -/
def splitLines : Str → List Str
  | [] => [[]]
  | '\n' :: rest => [] :: splitLines rest
  | '\r' :: '\n' :: rest => [] :: splitLines rest
  | c :: rest =>
    match splitLines rest with
    | l :: ls => (c :: l) :: ls
    | [] => [[c]]

/-- `line.split(";")`. -/
def splitSemi : Str → List Str
  | [] => [[]]
  | ';' :: rest => [] :: splitSemi rest
  | c :: rest =>
    match splitSemi rest with
    | l :: ls => (c :: l) :: ls
    | [] => [[c]]

/-- The `QA` record interface of `App.jsx`. -/
structure QA where
  question_id : Str
  question_english : Str
  correct_answer_english : Str
  incorrect_answer_1_english : Str
  incorrect_answer_2_english : Str
  incorrect_answer_3_english : Str
  question_french : Str
  correct_answer_french : Str
  incorrect_answer_1_french : Str
  incorrect_answer_2_french : Str
  incorrect_answer_3_french : Str
deriving DecidableEq, Repr

/-- The eleven record fields, in the order listed in `parseCSVSemicolon`. -/
def fieldNames : List Str :=
  [ "question_id".data,
    "question_english".data,
    "correct_answer_english".data,
    "incorrect_answer_1_english".data,
    "incorrect_answer_2_english".data,
    "incorrect_answer_3_english".data,
    "question_french".data,
    "correct_answer_french".data,
    "incorrect_answer_1_french".data,
    "incorrect_answer_2_french".data,
    "incorrect_answer_3_french".data ]

/-- The value stored for field `f` of a data row: `mapIdx[f] = header.findIndex(h => h === f)`;
`j >= 0 ? (cols[j]?.trim() ?? "") : ""`. -/
def getField (header cols : List Str) (f : Str) : Str :=
  match header.findIdx? (fun h => h == f) with
  | some j => trimStr (cols.getD j [])
  | none => []

/-- The row object built for one data line (the `row` of the loop body). -/
def mkRow (header cols : List Str) : QA :=
  { question_id := getField header cols "question_id".data
    question_english := getField header cols "question_english".data
    correct_answer_english := getField header cols "correct_answer_english".data
    incorrect_answer_1_english := getField header cols "incorrect_answer_1_english".data
    incorrect_answer_2_english := getField header cols "incorrect_answer_2_english".data
    incorrect_answer_3_english := getField header cols "incorrect_answer_3_english".data
    question_french := getField header cols "question_french".data
    correct_answer_french := getField header cols "correct_answer_french".data
    incorrect_answer_1_french := getField header cols "incorrect_answer_1_french".data
    incorrect_answer_2_french := getField header cols "incorrect_answer_2_french".data
    incorrect_answer_3_french := getField header cols "incorrect_answer_3_french".data }

/-- The treatment of one data line in the loop of `parseCSVSemicolon`:
`cols = lines[i].split(";")`; skip when `cols.length < header.length`;
build `row`; push only when `row.question_id` is truthy (non-empty). -/
def rowOf (header : List Str) (line : Str) : Option QA :=
  if (splitSemi line).length < header.length then none
  else if (getField header (splitSemi line) "question_id".data).isEmpty then none
  else some (mkRow header (splitSemi line))

/-- The body of the `for` loop of `parseCSVSemicolon`: push the line's record,
if any, onto the output. -/
def pushRow (header : List Str) (out : List QA) (l : Str) : List QA :=
  match rowOf header l with
  | some r => out ++ [r]
  | none => out

/-- `parseCSVSemicolon` of `App.jsx`, with the `for` loop over `lines[1…]`
rendered as a left fold pushing onto the output list. -/
def parseCSVSemicolon (text : Str) : List QA :=
  let lines := (splitLines text).filter (fun l => (trimStr l).length > 0)
  if lines.length < 2 then []
  else
    let header := (splitSemi (lines.getD 0 [])).map trimStr
    (lines.drop 1).foldl (pushRow header) []

/-- The parser as the specification describes it: split into lines, drop blank
lines, empty result below two non-empty lines, and an independent
line-by-line `filterMap` of the remaining lines against the header of the
first line. -/
def parseCSVSemicolonSpec (text : Str) : List QA :=
  let lines := (splitLines text).filter (fun l => (trimStr l).length > 0)
  if lines.length < 2 then []
  else
    (lines.drop 1).filterMap (rowOf ((splitSemi (lines.getD 0 [])).map trimStr))

/-! ## Association-list maps

The JavaScript objects `srs` (`{[question_id]: {ease, lastSeen}}`),
`progress` (`{[date]: {seen, correct, streak?}}`) and `answers`
(`{[question_id]: string}`) are string-keyed maps; they are modelled as
association lists with first-match lookup and in-place update. -/

/-- `m[k]`: first-match lookup in an association list (`undefined` ↦ `none`). -/
def lookupA {κ ν : Type} [DecidableEq κ] : List (κ × ν) → κ → Option ν
  | [], _ => none
  | p :: ps, k => if p.1 = k then some p.2 else lookupA ps k

/-- `m[k] = v`: replace the binding of `k`, or append a new binding. -/
def setA {κ ν : Type} [DecidableEq κ] : List (κ × ν) → κ → ν → List (κ × ν)
  | [], k, v => [(k, v)]
  | p :: ps, k, v => if p.1 = k then (k, v) :: ps else p :: setA ps k v

/-! ## `shuffle` (Fisher–Yates) -/

/-- `[a[i], a[j]] = [a[j], a[i]]` on a list; the identity when either index is
out of range (the call sites only use in-range indices). -/
def swapL {α : Type} (a : List α) (i j : Nat) : List α :=
  match a[i]?, a[j]? with
  | some x, some y => (a.set i y).set j x
  | _, _ => a

/-- The loop `for (let i = a.length - 1; i > 0; i--)` of `shuffle`, counting
`i` down; `Math.floor(Math.random() * (i + 1))` is `rand i % (i + 1)`. -/
def shuffleAux {α : Type} (rand : Nat → Nat) : List α → Nat → List α
  | a, 0 => a
  | a, i + 1 => shuffleAux rand (swapL a (i + 1) (rand (i + 1) % (i + 2))) i

/-- `shuffle` of `App.jsx`: copy the input and Fisher–Yates over it with the
randomness oracle `rand`. -/
def shuffle {α : Type} (rand : Nat → Nat) (arr : List α) : List α :=
  shuffleAux rand arr (arr.length - 1)

/-! ## Review state (SRS) and the flashcard ordering -/

/-- One entry of `hamlearn.srs`: `{ ease: 1|2|3, lastSeen: ISO }`, with the
timestamp as epoch milliseconds. -/
structure SrsEntry where
  ease : Nat
  lastSeen : Nat
deriving DecidableEq, Repr

/-- The SRS map, per question id. -/
abbrev Srs := List (Str × SrsEntry)

/-- `srs[q.question_id]?.ease ?? 1`. -/
def easeOf (srs : Srs) (q : QA) : Nat :=
  match lookupA srs q.question_id with
  | some e => e.ease
  | none => 1

/-- `s?.lastSeen ? new Date(s.lastSeen).getTime() : 0`. -/
def lastOf (srs : Srs) (q : QA) : Nat :=
  match lookupA srs q.question_id with
  | some e => e.lastSeen
  | none => 0

/-- The composite sort key of `Flashcards.ordered`:
`ease * 1000000000 + last`. -/
def score (srs : Srs) (q : QA) : Nat :=
  easeOf srs q * 1000000000 + lastOf srs q

/-! ## Daily progress and the streak -/

/-- One entry of `hamlearn.progress`: `{ seen, correct, streak? }`. -/
structure DayStat where
  seen : Nat
  correct : Nat
  streak : Option Nat
deriving DecidableEq, Repr

/-- The per-date progress map; dates are integer day numbers. -/
abbrev Progress := List (Int × DayStat)

/-- `cur[k] && cur[k].seen !== 0`: day `d` has a recorded entry with a
non-zero seen count. -/
def hasActivity (cur : Progress) (d : Int) : Bool :=
  match lookupA cur d with
  | some e => e.seen != 0
  | none => false

/-- The body of the `while (true)` streak loop, with explicit fuel: walk
backwards from day `d`, counting while each day has an entry with non-zero
`seen`, and stop at the first gap. -/
def streakLoop (cur : Progress) : Int → Nat → Nat
  | _, 0 => 0
  | d, fuel + 1 =>
    match lookupA cur d with
    | none => 0
    | some e => if e.seen = 0 then 0 else streakLoop cur (d - 1) fuel + 1

/-- The streak computed by the loop; fuel `cur.length + 1` is sufficient
(`streakLoop_le_length` below), so this is the value of the unbounded loop. -/
def streakOf (cur : Progress) (d : Int) : Nat :=
  streakLoop cur d (cur.length + 1)

/-- The updated entry for today before the streak write:
`day = cur[key] || {seen: 0, correct: 0}; day.seen += seen; day.correct += correct`. -/
def bumpDay (cur : Progress) (today : Int) (seen correct : Nat) : DayStat :=
  ⟨((lookupA cur today).getD ⟨0, 0, none⟩).seen + seen,
    ((lookupA cur today).getD ⟨0, 0, none⟩).correct + correct,
    ((lookupA cur today).getD ⟨0, 0, none⟩).streak⟩

/-- `bumpProgress` of `App.jsx`: add `seen`/`correct` to today's entry
(creating `{seen: 0, correct: 0}` when absent), recompute the streak by the
backward walk over the updated map, and store it on today's entry. -/
def bumpProgress (cur : Progress) (today : Int) (seen correct : Nat) : Progress :=
  setA (setA cur today (bumpDay cur today seen correct)) today
    ⟨(bumpDay cur today seen correct).seen, (bumpDay cur today seen correct).correct,
      some (streakOf (setA cur today (bumpDay cur today seen correct)) today)⟩

/-! ## The application state and the two progress-recording events -/

/-- The language toggle. -/
inductive Lang where
  | fr
  | en
deriving DecidableEq, Repr

/-- The correct answer of `q` in the active language. -/
def goodOf (lang : Lang) (q : QA) : Str :=
  match lang with
  | .fr => q.correct_answer_french
  | .en => q.correct_answer_english

/-- The persistent state of the application: the SRS map and the progress
map (`hamlearn.srs` and `hamlearn.progress`). -/
structure Store where
  srs : Srs
  progress : Progress
deriving DecidableEq, Repr

namespace Flashcards

/-- `Flashcards.ordered`: the bank copied and sorted by the composite score;
JavaScript `Array.prototype.sort` is stable, so the result is the (unique)
stable sort by `score`, here realised by insertion sort. -/
def ordered (srs : Srs) (qas : List QA) : List QA :=
  List.insertionSort (fun a b => score srs a ≤ score srs b) qas

/-- `Flashcards.mark`: store `{ease, lastSeen: now}` under the card's id and
bump today's progress by one seen and by one correct when `ease >= 2`. -/
def mark (st : Store) (q : QA) (ease : Nat) (now : Nat) (today : Int) : Store :=
  { srs := setA st.srs q.question_id ⟨ease, now⟩
    progress := bumpProgress st.progress today 1 (if 2 ≤ ease then 1 else 0) }

end Flashcards

namespace Quiz

/-- The counting `forEach` of `Quiz.submit` (and the `reduce` of
`ResultsSummary`): the number of picked questions whose selected answer
equals the correct answer in the active language (`undefined` never equals
a string). -/
def countCorrect (pick : List QA) (answers : List (Str × Str)) (lang : Lang) : Nat :=
  pick.foldl
    (fun c q => if lookupA answers q.question_id = some (goodOf lang q) then c + 1 else c)
    0

/-- `Quiz.pick`: `shuffle(qas).slice(0, Math.min(nq, qas.length))`. -/
def pick (rand : Nat → Nat) (nq : Nat) (qas : List QA) : List QA :=
  (shuffle rand qas).take (min nq qas.length)

/-- `Quiz.submit`: score the picked questions against the selected answers and
bump today's progress; the SRS map is untouched. -/
def submit (st : Store) (picked : List QA) (answers : List (Str × Str)) (lang : Lang)
    (today : Int) : Store :=
  { st with progress := bumpProgress st.progress today picked.length (countCorrect picked answers lang) }

end Quiz

/-! ## Displayed percentages -/

/-- `Math.round` on the (non-negative) rationals that occur here: round half
towards positive infinity. -/
def jsRound (x : ℚ) : ℤ :=
  ⌊x + 1 / 2⌋

/-- The percentage of `ResultsSummary`:
`total ? Math.round((correct / total) * 100) : 0`. -/
def resultsPct (picked : List QA) (answers : List (Str × Str)) (lang : Lang) : ℤ :=
  if picked.length ≠ 0 then
    jsRound (((Quiz.countCorrect picked answers lang : ℚ) / (picked.length : ℚ)) * 100)
  else 0

/-- The per-day percentage of the `ProgressDashboard` history table:
`it.seen ? Math.round((it.correct / it.seen) * 100) : 0`. -/
def historyPct (it : DayStat) : ℤ :=
  if it.seen ≠ 0 then jsRound (((it.correct : ℚ) / (it.seen : ℚ)) * 100) else 0

/-! ## Concrete instances used in witnesses and counterexamples -/

/-- Concrete questions used in the concrete instances below. -/
def qA0 : QA := ⟨"A".data, [], [], [], [], [], [], [], [], [], []⟩

def qB0 : QA := ⟨"B".data, [], [], [], [], [], [], [], [], [], []⟩

/-- A review state giving `qA0` the lower ease with both timestamps zero. -/
def srsW : Srs := [("A".data, ⟨1, 0⟩), ("B".data, ⟨2, 0⟩)]

/-- A review state giving `qA0` the lower ease but a larger (realistic,
epoch-millisecond) last-seen timestamp than `qB0`. -/
def srsCx : Srs := [("A".data, ⟨1, 2000000000000⟩), ("B".data, ⟨3, 1000000000000⟩)]

/-- The claim's formula for a displayed percentage: `round(100 * correct / total)`
when the total is positive and exactly `0` when it is zero. -/
def specPct (c t : Nat) : ℤ :=
  if t = 0 then 0 else jsRound (100 * (c : ℚ) / (t : ℚ))

/-- The all-blank question record, used as the `getD` default below. -/
def emptyQA : QA := ⟨[], [], [], [], [], [], [], [], [], [], []⟩

/-- An input text whose two data lines carry the same `question_id` `X` but
different question texts. -/
def dupText : Str :=
  ("question_id;question_english;correct_answer_english;incorrect_answer_1_english;incorrect_answer_2_english;incorrect_answer_3_english;question_french;correct_answer_french;incorrect_answer_1_french;incorrect_answer_2_french;incorrect_answer_3_french\nX;qEa;cEa;i1a;i2a;i3a;qFa;cFa;j1a;j2a;j3a\nX;qEb;cEb;i1b;i2b;i3b;qFb;cFb;j1b;j2b;j3b").data

/-! ## Lemmas: association lists -/

theorem lookupA_setA_self {κ ν : Type} [DecidableEq κ] (m : List (κ × ν)) (k : κ) (v : ν) :
    lookupA (setA m k v) k = some v := by
  induction m with
  | nil => simp [setA, lookupA]
  | cons p ps ih =>
    by_cases h : p.1 = k
    · simp [setA, lookupA, h]
    · simp [setA, lookupA, h, ih]

theorem lookupA_setA_ne {κ ν : Type} [DecidableEq κ] (m : List (κ × ν)) (k k' : κ) (v : ν)
    (h : k' ≠ k) : lookupA (setA m k v) k' = lookupA m k' := by
  induction m with
  | nil => simp [setA, lookupA, Ne.symm h]
  | cons p ps ih =>
    by_cases hp : p.1 = k
    · simp [setA, lookupA, hp, Ne.symm h]
    · by_cases hp' : p.1 = k'
      · simp [setA, lookupA, hp, hp', h]
      · simp [setA, lookupA, hp, hp', ih]

theorem lookupA_mem_keys {κ ν : Type} [DecidableEq κ] (m : List (κ × ν)) (k : κ) (v : ν)
    (h : lookupA m k = some v) : k ∈ m.map Prod.fst := by
  induction m with
  | nil => simp [lookupA] at h
  | cons p ps ih =>
    by_cases hp : p.1 = k
    · simp [hp]
    · simp only [lookupA, hp, if_false] at h
      simp [ih h]

/-! ## Lemmas: `shuffle` is a permutation -/

theorem headSwap_perm {α : Type} :
    ∀ (l : List α) (j : Nat) (a y : α), l[j]? = some y → (y :: l.set j a).Perm (a :: l) := by
  intro l
  induction l with
  | nil => intro j a y h; simp at h
  | cons b t ih =>
    intro j a y h
    match j with
    | 0 =>
      have hb : b = y := by simpa using h
      subst hb
      simpa using List.Perm.swap a b t
    | k + 1 =>
      simp only [List.getElem?_cons_succ] at h
      simp only [List.set_cons_succ]
      have h1 : (y :: b :: t.set k a).Perm (b :: y :: t.set k a) := List.Perm.swap b y _
      have h2 : (b :: (y :: t.set k a)).Perm (b :: (a :: t)) := (ih k a y h).cons b
      have h3 : (b :: a :: t).Perm (a :: b :: t) := List.Perm.swap a b t
      exact (h1.trans h2).trans h3

theorem swapL_perm {α : Type} : ∀ (l : List α) (i j : Nat), (swapL l i j).Perm l := by
  intro l
  induction l with
  | nil => intro i j; simp [swapL]
  | cons a t ih =>
    intro i j
    match i, j with
    | 0, 0 => simp [swapL]
    | 0, k + 1 =>
      cases h : t[k]? with
      | none => simp [swapL, h]
      | some y => simpa [swapL, h] using headSwap_perm t k a y h
    | m + 1, 0 =>
      cases h : t[m]? with
      | none => simp [swapL, h]
      | some x => simpa [swapL, h] using headSwap_perm t m a x h
    | m + 1, k + 1 =>
      cases hm : t[m]? with
      | none => simp [swapL, hm]
      | some x =>
        cases hk : t[k]? with
        | none => simp [swapL, hm, hk]
        | some y =>
          have h := ih m k
          simp only [swapL, hm, hk] at h
          simpa [swapL, hm, hk] using h.cons a

theorem shuffleAux_perm {α : Type} (rand : Nat → Nat) :
    ∀ (n : Nat) (a : List α), (shuffleAux rand a n).Perm a := by
  intro n
  induction n with
  | zero => intro a; exact List.Perm.refl a
  | succ i ih =>
    intro a
    exact (ih _).trans (swapL_perm a (i + 1) (rand (i + 1) % (i + 2)))

theorem shuffle_perm {α : Type} (rand : Nat → Nat) (arr : List α) :
    (shuffle rand arr).Perm arr :=
  shuffleAux_perm rand (arr.length - 1) arr

/-! ## Lemmas: the streak loop -/

theorem streakLoop_le_fuel (cur : Progress) :
    ∀ (fuel : Nat) (d : Int), streakLoop cur d fuel ≤ fuel := by
  intro fuel
  induction fuel with
  | zero => intro d; simp [streakLoop]
  | succ n ih =>
    intro d
    cases hl : lookupA cur d with
    | none => simp [streakLoop, hl]
    | some e =>
      by_cases hs : e.seen = 0
      · simp [streakLoop, hl, hs]
      · simp only [streakLoop, hl, hs, if_false]
        exact Nat.succ_le_succ (ih (d - 1))

theorem streakLoop_activity (cur : Progress) :
    ∀ (fuel : Nat) (d : Int) (k : Nat), k < streakLoop cur d fuel →
      hasActivity cur (d - (k : Int)) = true := by
  intro fuel
  induction fuel with
  | zero => intro d k hk; simp [streakLoop] at hk
  | succ n ih =>
    intro d k hk
    cases hl : lookupA cur d with
    | none => simp [streakLoop, hl] at hk
    | some e =>
      by_cases hs : e.seen = 0
      · simp [streakLoop, hl, hs] at hk
      · simp only [streakLoop, hl, hs, if_false] at hk
        match k with
        | 0 => simpa [hasActivity, hl] using hs
        | k' + 1 =>
          have hk' : k' < streakLoop cur (d - 1) n := by omega
          have hd : d - ((k' + 1 : Nat) : Int) = (d - 1) - (k' : Int) := by
            push_cast
            ring
          rw [hd]
          exact ih (d - 1) k' hk'

theorem streakLoop_break (cur : Progress) :
    ∀ (fuel : Nat) (d : Int), streakLoop cur d fuel < fuel →
      hasActivity cur (d - (streakLoop cur d fuel : Int)) = false := by
  intro fuel
  induction fuel with
  | zero => intro d h; omega
  | succ n ih =>
    intro d h
    cases hl : lookupA cur d with
    | none => simp [streakLoop, hl, hasActivity]
    | some e =>
      by_cases hs : e.seen = 0
      · simp [streakLoop, hl, hs, hasActivity]
      · simp only [streakLoop, hl, hs, if_false] at h ⊢
        have hlt : streakLoop cur (d - 1) n < n := by omega
        have hd : d - ((streakLoop cur (d - 1) n + 1 : Nat) : Int) =
            (d - 1) - (streakLoop cur (d - 1) n : Int) := by
          push_cast
          ring
        rw [hd]
        exact ih (d - 1) hlt

theorem streakLoop_le_length (cur : Progress) (d : Int) :
    streakLoop cur d (cur.length + 1) ≤ cur.length := by
  by_contra hcon
  push_neg at hcon
  have hmem : ∀ k < streakLoop cur d (cur.length + 1), (d - (k : Int)) ∈ cur.map Prod.fst := by
    intro k hk
    have hact := streakLoop_activity cur (cur.length + 1) d k hk
    unfold hasActivity at hact
    cases hl : lookupA cur (d - (k : Int)) with
    | none => rw [hl] at hact; simp at hact
    | some e => exact lookupA_mem_keys cur _ e hl
  have hinj : Function.Injective (fun k : Nat => d - (k : Int)) := by
    intro a b hab
    simp only at hab
    omega
  have hsub : (Finset.range (streakLoop cur d (cur.length + 1))).image
      (fun k : Nat => d - (k : Int)) ⊆ (cur.map Prod.fst).toFinset := by
    intro x hx
    simp only [Finset.mem_image, Finset.mem_range] at hx
    obtain ⟨k, hk, rfl⟩ := hx
    exact List.mem_toFinset.mpr (hmem k hk)
  have hcard : streakLoop cur d (cur.length + 1) ≤ (cur.map Prod.fst).toFinset.card := by
    have h1 := Finset.card_le_card hsub
    rwa [Finset.card_image_of_injective _ hinj, Finset.card_range] at h1
  have hlen : (cur.map Prod.fst).toFinset.card ≤ cur.length := by
    have h2 := List.toFinset_card_le (l := cur.map Prod.fst)
    simpa using h2
  omega

/-- The two clauses that pin the streak value down: every day in the window
`today, today-1, …` of length `s` has recorded activity, and the day just
beyond the window has none. -/
theorem streakOf_spec (cur : Progress) (d : Int) :
    (∀ k < streakOf cur d, hasActivity cur (d - (k : Int)) = true) ∧
      hasActivity cur (d - (streakOf cur d : Int)) = false := by
  constructor
  · intro k hk
    exact streakLoop_activity cur (cur.length + 1) d k hk
  · exact streakLoop_break cur (cur.length + 1) d
      (lt_of_le_of_lt (streakLoop_le_length cur d) (Nat.lt_succ_self _))

theorem hasActivity_setA_seen_eq (cur : Progress) (today : Int) (e e' : DayStat)
    (hl : lookupA cur today = some e) (hs : e'.seen = e.seen) :
    ∀ d, hasActivity (setA cur today e') d = hasActivity cur d := by
  intro d
  by_cases hd : d = today
  · subst hd
    simp [hasActivity, lookupA_setA_self, hl, hs]
  · simp [hasActivity, lookupA_setA_ne cur today d e' hd]

theorem setA_setStreak_spec (cur : Progress) (today : Int) (day' : DayStat) :
    ∃ e, lookupA (setA (setA cur today day') today
        ⟨day'.seen, day'.correct, some (streakOf (setA cur today day') today)⟩) today = some e ∧
      ∃ s, e.streak = some s ∧
        (∀ k < s, hasActivity (setA (setA cur today day') today
          ⟨day'.seen, day'.correct, some (streakOf (setA cur today day') today)⟩)
            (today - (k : Int)) = true) ∧
        hasActivity (setA (setA cur today day') today
          ⟨day'.seen, day'.correct, some (streakOf (setA cur today day') today)⟩)
            (today - (s : Int)) = false := by
  have htrans := hasActivity_setA_seen_eq (setA cur today day') today day'
    ⟨day'.seen, day'.correct, some (streakOf (setA cur today day') today)⟩
    (lookupA_setA_self cur today day') rfl
  refine ⟨_, lookupA_setA_self _ _ _, streakOf (setA cur today day') today, rfl, ?_, ?_⟩
  · intro k hk
    rw [htrans]
    exact (streakOf_spec (setA cur today day') today).1 k hk
  · rw [htrans]
    exact (streakOf_spec (setA cur today day') today).2

/-- `bumpProgress` stores under today a streak value that counts exactly the
consecutive active days ending at today. -/
theorem bumpProgress_streakSpec (cur : Progress) (today : Int) (seen correct : Nat) :
    ∃ e, lookupA (bumpProgress cur today seen correct) today = some e ∧
      ∃ s, e.streak = some s ∧
        (∀ k < s, hasActivity (bumpProgress cur today seen correct) (today - (k : Int)) = true) ∧
        hasActivity (bumpProgress cur today seen correct) (today - (s : Int)) = false :=
  setA_setStreak_spec cur today (bumpDay cur today seen correct)

/-! ## Lemmas: the flashcard ordering -/

theorem flashcards_ordered_sorted (srs : Srs) (qas : List QA) :
    (Flashcards.ordered srs qas).Sorted (fun a b => score srs a ≤ score srs b) := by
  haveI : IsTotal QA (fun a b => score srs a ≤ score srs b) := ⟨fun a b => Nat.le_total _ _⟩
  haveI : IsTrans QA (fun a b => score srs a ≤ score srs b) := ⟨fun _ _ _ => Nat.le_trans⟩
  exact List.sorted_insertionSort _ qas

/-- C1 (counterexample): with realistic epoch-millisecond timestamps the
last-seen term can override the ease term: `qA0` has the strictly lower
stored ease, yet the flashcard order puts `qB0` first. -/
theorem flashcards_order_ease_not_dominant :
    easeOf srsCx qA0 < easeOf srsCx qB0 ∧
      Flashcards.ordered srsCx [qA0, qB0] = [qB0, qA0] := by
  constructor
  · decide
  · decide

/-- C1 (amended): the ease rating dominates the composite key only as far as
the timestamp term stays below the multiplier: if a question at position `i`
of the flashcard order has a strictly lower stored ease rating than the
question at position `j` and the lower-ease question's last-seen value is
below `1000000000`, then `i < j` — the lower-ease question appears earlier. -/
theorem flashcards_order_lower_ease_first (srs : Srs) (qas : List QA) (i j : Nat)
    (hi : i < (Flashcards.ordered srs qas).length)
    (hj : j < (Flashcards.ordered srs qas).length)
    (hease : easeOf srs ((Flashcards.ordered srs qas).get ⟨i, hi⟩) <
        easeOf srs ((Flashcards.ordered srs qas).get ⟨j, hj⟩))
    (hlast : lastOf srs ((Flashcards.ordered srs qas).get ⟨i, hi⟩) < 1000000000) :
    i < j := by
  rcases Nat.lt_trichotomy i j with h | h | h
  · exact h
  · exact absurd hease (by subst h; exact lt_irrefl _)
  · exfalso
    have hs := List.Sorted.rel_get_of_lt (flashcards_ordered_sorted srs qas)
      (a := ⟨j, hj⟩) (b := ⟨i, hi⟩) (Fin.mk_lt_mk.mpr h)
    have hs' : score srs ((Flashcards.ordered srs qas).get ⟨j, hj⟩) ≤
        score srs ((Flashcards.ordered srs qas).get ⟨i, hi⟩) := hs
    unfold score at hs'
    omega

/-- Witness for the amended C1 at a concrete bank and review state. -/
theorem flashcards_order_lower_ease_first_witness :
    easeOf srsW qA0 < easeOf srsW qB0 ∧ (0 : Nat) < 1 :=
  ⟨by decide,
    flashcards_order_lower_ease_first srsW [qB0, qA0] 0 1 (by decide) (by decide)
      (by decide) (by decide)⟩

/-- C8: the flashcard ordering is stable: the questions whose composite review
key (stored ease rating, last-seen value) equals any fixed `(e, t)` appear in
the flashcard order in exactly the order they have in the underlying bank
list. -/
theorem flashcards_ordered_stable (srs : Srs) (qas : List QA) (e t : Nat) :
    (Flashcards.ordered srs qas).filter (fun q => easeOf srs q == e && lastOf srs q == t) =
      qas.filter (fun q => easeOf srs q == e && lastOf srs q == t) := by
  have hperm : (Flashcards.ordered srs qas).Perm qas := List.perm_insertionSort _ qas
  set p : QA → Bool := fun q => easeOf srs q == e && lastOf srs q == t with hp
  have hpair : (qas.filter p).Pairwise (fun a b => score srs a ≤ score srs b) := by
    rw [List.pairwise_iff_forall_sublist]
    intro a b hab
    have ha : a ∈ qas.filter p := hab.subset (by simp)
    have hb : b ∈ qas.filter p := hab.subset (by simp)
    have ha' := (List.mem_filter.mp ha).2
    have hb' := (List.mem_filter.mp hb).2
    simp only [hp, Bool.and_eq_true, beq_iff_eq] at ha' hb'
    unfold score
    omega
  have hsub : List.Sublist (qas.filter p) (Flashcards.ordered srs qas) :=
    List.sublist_insertionSort hpair (List.filter_sublist qas)
  have hall : ∀ x ∈ qas.filter p, p x := fun x hx => List.of_mem_filter hx
  have hidem : (qas.filter p).filter p = qas.filter p := List.filter_eq_self.mpr hall
  have hsub2 : List.Sublist (qas.filter p) ((Flashcards.ordered srs qas).filter p) := by
    have h2 := hsub.filter p
    rwa [hidem] at h2
  have hlen : ((Flashcards.ordered srs qas).filter p).length = (qas.filter p).length :=
    (hperm.filter p).length_eq
  exact (hsub2.eq_of_length hlen.symm).symm

/-! ## Lemmas: parser refinement -/

theorem foldl_push_filterMap (header : List Str) :
    ∀ (l : List Str) (acc : List QA),
      l.foldl (pushRow header) acc = acc ++ l.filterMap (rowOf header) := by
  intro l
  induction l with
  | nil => intro acc; simp
  | cons x xs ih =>
    intro acc
    cases hfx : rowOf header x with
    | none =>
      simp only [List.foldl_cons, pushRow, hfx, List.filterMap_cons_none hfx]
      exact ih acc
    | some r =>
      simp only [List.foldl_cons, pushRow, hfx, List.filterMap_cons_some hfx]
      rw [ih (acc ++ [r])]
      simp

/-- C3: the parser is the single-pass split-and-map the specification
describes: it equals the blank-line-dropping, under-two-lines-empty,
per-line `filterMap` composition, and one line yields no record exactly when
it has fewer columns than the header or an empty `question_id` value; a bad
line never aborts the pass. -/
theorem parseCSVSemicolon_single_pass (text : Str) :
    parseCSVSemicolon text = parseCSVSemicolonSpec text ∧
      ∀ (header : List Str) (line : Str),
        rowOf header line = none ↔
          ((splitSemi line).length < header.length ∨
            getField header (splitSemi line) "question_id".data = []) := by
  constructor
  · unfold parseCSVSemicolon parseCSVSemicolonSpec
    by_cases h : ((splitLines text).filter (fun l => (trimStr l).length > 0)).length < 2
    · simp [h]
    · simp only [h, if_false]
      exact foldl_push_filterMap _ _ []

  · intro header line
    unfold rowOf
    by_cases h1 : (splitSemi line).length < header.length
    · simp [h1]
    · by_cases h2 : (getField header (splitSemi line) "question_id".data).isEmpty
      · simp [h1, h2, List.isEmpty_iff.mp h2]
      · simp only [h1, if_false, h2, Bool.false_eq_true]
        simp [List.isEmpty_iff] at h2
        simp [h1, h2]

/-! ## Lemmas: quiz scoring and progress bookkeeping -/

theorem countCorrect_eq_filter (picked : List QA) (answers : List (Str × Str)) (lang : Lang) :
    Quiz.countCorrect picked answers lang =
      (picked.filter (fun q => lookupA answers q.question_id == some (goodOf lang q))).length := by
  unfold Quiz.countCorrect
  suffices h : ∀ (l : List QA) (n : Nat),
      l.foldl (fun c q => if lookupA answers q.question_id = some (goodOf lang q) then c + 1 else c) n
        = n + (l.filter (fun q => lookupA answers q.question_id == some (goodOf lang q))).length by
    simpa using h picked 0
  intro l
  induction l with
  | nil => intro n; simp
  | cons x xs ih =>
    intro n
    by_cases hx : lookupA answers x.question_id = some (goodOf lang x)
    · simp only [List.foldl_cons, hx, if_true, List.filter_cons, beq_iff_eq]
      rw [ih (n + 1)]
      simp [hx]
      try omega
    · simp only [List.foldl_cons, hx, if_false, List.filter_cons, beq_iff_eq]
      rw [ih n]
      try simp [hx]

theorem bumpProgress_lookup_today (cur : Progress) (today : Int) (seen correct : Nat) :
    lookupA (bumpProgress cur today seen correct) today =
      some ⟨(bumpDay cur today seen correct).seen, (bumpDay cur today seen correct).correct,
        some (streakOf (setA cur today (bumpDay cur today seen correct)) today)⟩ := by
  unfold bumpProgress
  exact lookupA_setA_self _ _ _

theorem bumpProgress_lookup_ne (cur : Progress) (today : Int) (seen correct : Nat) (d : Int)
    (hd : d ≠ today) :
    lookupA (bumpProgress cur today seen correct) d = lookupA cur d := by
  unfold bumpProgress
  rw [lookupA_setA_ne _ _ _ _ hd, lookupA_setA_ne _ _ _ _ hd]

/-! ## Claims about progress recording and review-state framing -/

/-- C2: after either progress-recording event — a flashcard grade or a quiz
submission — the streak stored under today's date counts exactly the
consecutive calendar days ending at today each of which has a recorded entry
with a non-zero seen count; the backward walk stops at the first day with no
entry or a zero seen count. -/
theorem progress_events_streak (st : Store) (q : QA) (ease now : Nat) (today : Int)
    (picked : List QA) (answers : List (Str × Str)) (lang : Lang) :
    (∃ e, lookupA (Flashcards.mark st q ease now today).progress today = some e ∧
      ∃ s, e.streak = some s ∧
        (∀ k < s,
          hasActivity (Flashcards.mark st q ease now today).progress (today - (k : Int)) = true) ∧
        hasActivity (Flashcards.mark st q ease now today).progress (today - (s : Int)) = false) ∧
    (∃ e, lookupA (Quiz.submit st picked answers lang today).progress today = some e ∧
      ∃ s, e.streak = some s ∧
        (∀ k < s,
          hasActivity (Quiz.submit st picked answers lang today).progress (today - (k : Int)) = true) ∧
        hasActivity (Quiz.submit st picked answers lang today).progress (today - (s : Int)) = false) :=
  ⟨bumpProgress_streakSpec st.progress today 1 (if 2 ≤ ease then 1 else 0),
    bumpProgress_streakSpec st.progress today picked.length (Quiz.countCorrect picked answers lang)⟩

/-- Witness for C2 at a concrete store and date. -/
theorem progress_events_streak_witness :
    ∃ e, lookupA (Flashcards.mark ⟨[], []⟩ qA0 2 5 0).progress 0 = some e ∧
      ∃ s, e.streak = some s ∧
        (∀ k < s, hasActivity (Flashcards.mark ⟨[], []⟩ qA0 2 5 0).progress (0 - (k : Int)) = true) ∧
        hasActivity (Flashcards.mark ⟨[], []⟩ qA0 2 5 0).progress (0 - (s : Int)) = false :=
  (progress_events_streak ⟨[], []⟩ qA0 2 5 0 [] [] Lang.fr).1

/-- C4: a quiz submission adds the number of picked questions to today's seen
count and the number of correctly answered picked questions to today's
correct count, and leaves the entry of every other date unchanged. -/
theorem quiz_submit_progress (st : Store) (picked : List QA) (answers : List (Str × Str))
    (lang : Lang) (today : Int) :
    ((lookupA (Quiz.submit st picked answers lang today).progress today).getD ⟨0, 0, none⟩).seen =
        ((lookupA st.progress today).getD ⟨0, 0, none⟩).seen + picked.length ∧
    ((lookupA (Quiz.submit st picked answers lang today).progress today).getD ⟨0, 0, none⟩).correct =
        ((lookupA st.progress today).getD ⟨0, 0, none⟩).correct +
          (picked.filter (fun p => lookupA answers p.question_id == some (goodOf lang p))).length ∧
    ∀ d : Int, d ≠ today →
      lookupA (Quiz.submit st picked answers lang today).progress d = lookupA st.progress d := by
  refine ⟨?_, ?_, ?_⟩
  · show ((lookupA (bumpProgress st.progress today picked.length
        (Quiz.countCorrect picked answers lang)) today).getD ⟨0, 0, none⟩).seen = _
    rw [bumpProgress_lookup_today]
    rfl
  · show ((lookupA (bumpProgress st.progress today picked.length
        (Quiz.countCorrect picked answers lang)) today).getD ⟨0, 0, none⟩).correct = _
    rw [bumpProgress_lookup_today]
    show (bumpDay st.progress today picked.length (Quiz.countCorrect picked answers lang)).correct = _
    rw [bumpDay]
    rw [countCorrect_eq_filter]
  · intro d hd
    show lookupA (bumpProgress st.progress today picked.length
        (Quiz.countCorrect picked answers lang)) d = _
    exact bumpProgress_lookup_ne _ _ _ _ d hd

/-- Witness for C4 at a concrete store, quiz and date. -/
theorem quiz_submit_progress_witness :
    lookupA (Quiz.submit ⟨[], []⟩ [qA0] [] Lang.fr 0).progress 5 =
      lookupA (⟨[], []⟩ : Store).progress 5 :=
  (quiz_submit_progress ⟨[], []⟩ [qA0] [] Lang.fr 0).2.2 5 (by decide)

/-- C5: the per-question review state is mutated only by flashcard grading:
a quiz submission leaves the SRS map unchanged, and grading one card with
ease `e` at time `now` sets exactly that question's entry to `(e, now)` while
every other question id keeps its entry. -/
theorem review_state_frame (st : Store) (q : QA) (ease now : Nat) (today : Int)
    (picked : List QA) (answers : List (Str × Str)) (lang : Lang) :
    (Quiz.submit st picked answers lang today).srs = st.srs ∧
    lookupA (Flashcards.mark st q ease now today).srs q.question_id = some ⟨ease, now⟩ ∧
    ∀ qid : Str, qid ≠ q.question_id →
      lookupA (Flashcards.mark st q ease now today).srs qid = lookupA st.srs qid := by
  refine ⟨rfl, ?_, ?_⟩
  · show lookupA (setA st.srs q.question_id ⟨ease, now⟩) q.question_id = _
    exact lookupA_setA_self _ _ _
  · intro qid hqid
    show lookupA (setA st.srs q.question_id ⟨ease, now⟩) qid = _
    exact lookupA_setA_ne _ _ _ _ hqid

/-- Witness for C5 at a concrete store, card and foreign id. -/
theorem review_state_frame_witness :
    lookupA (Flashcards.mark ⟨[], []⟩ qA0 3 7 0).srs "B".data =
      lookupA (⟨[], []⟩ : Store).srs "B".data :=
  (review_state_frame ⟨[], []⟩ qA0 3 7 0 [] [] Lang.fr).2.2 "B".data (by decide)

/-! ## Claims about sampling -/

/-- C9: for every randomness oracle, `shuffle` returns a permutation of its
input: same length and same elements with the same multiplicities (the input
list, an immutable value here because the source copies the array before
swapping, is untouched). -/
theorem shuffle_permutes {α : Type} [DecidableEq α] (rand : Nat → Nat) (arr : List α) :
    (shuffle rand arr).Perm arr ∧ (shuffle rand arr).length = arr.length ∧
      ∀ x : α, (shuffle rand arr).count x = arr.count x :=
  ⟨shuffle_perm rand arr, (shuffle_perm rand arr).length_eq,
    fun x => (shuffle_perm rand arr).count_eq x⟩

/-- C6: for every bank and requested size, the quiz pick has exactly
`min n (bank size)` questions and is a sub-permutation of the bank: every
question is drawn from the bank and no bank position is used twice. -/
theorem quiz_pick_is_sample (rand : Nat → Nat) (nq : Nat) (qas : List QA) :
    (Quiz.pick rand nq qas).length = min nq qas.length ∧
      List.Subperm (Quiz.pick rand nq qas) qas := by
  constructor
  · unfold Quiz.pick
    rw [List.length_take, (shuffle_perm rand qas).length_eq]
    omega
  · unfold Quiz.pick
    have htake : List.Sublist ((shuffle rand qas).take (min nq qas.length)) (shuffle rand qas) :=
      List.take_sublist _ _
    exact htake.subperm.trans (shuffle_perm rand qas).subperm

/-! ## Claims about displayed percentages and duplicate identifiers -/

/-- C10: both displayed percentages are guarded against division by zero: the
quiz result percentage and each daily-history percentage equal
`round(100 * correct / total)` for positive totals and `0` for a zero
total. -/
theorem displayed_pct_guarded (picked : List QA) (answers : List (Str × Str)) (lang : Lang) :
    resultsPct picked answers lang =
      specPct ((picked.filter (fun p => lookupA answers p.question_id == some (goodOf lang p))).length)
        picked.length ∧
    ∀ it : DayStat, historyPct it = specPct it.correct it.seen := by
  constructor
  · unfold resultsPct specPct
    rw [countCorrect_eq_filter]
    by_cases h : picked.length = 0
    · simp [h]
    · simp only [h, if_false, ne_eq, not_false_iff, if_true]
      congr 1
      ring
  · intro it
    unfold historyPct specPct
    by_cases h : it.seen = 0
    · simp [h]
    · simp only [h, if_false, ne_eq, not_false_iff, if_true]
      congr 1
      ring

set_option maxRecDepth 40000 in
/-- C7: the parser does not enforce question-id uniqueness: on `dupText` it
returns two distinct records with the same `question_id`, and the flashcard
ordering (on an empty review state) keeps both rather than deduplicating. -/
theorem parser_accepts_duplicate_ids :
    (parseCSVSemicolon dupText).length = 2 ∧
    ((parseCSVSemicolon dupText).getD 0 emptyQA).question_id =
      ((parseCSVSemicolon dupText).getD 1 emptyQA).question_id ∧
    (parseCSVSemicolon dupText).getD 0 emptyQA ≠ (parseCSVSemicolon dupText).getD 1 emptyQA ∧
    (Flashcards.ordered [] (parseCSVSemicolon dupText)).length = 2 := by
  refine ⟨by decide, by decide, by decide, by decide⟩
